import Mathlib

/-
Shallow embedding of `openmdao/vectors/default_vector.py`.

A `DefaultVector`'s `_data` attribute is a list of per-variable-set numeric
buffers; we model it as `List (List ℚ)` (one rational list per set).  A
`DefaultTransfer` holds, per `(ip_iset, op_iset)` key, two equal-length index
arrays `_ip_inds[key]` and `_op_inds[key]`; we model the pair of dicts as a
list of `TEntry` records (the dict iteration order is the list order).

numpy primitives used by the source are modelled on lists:
  * fancy-index read   `a[inds]`            -> `gather`
  * fancy-index write  `a[inds] = vals`     -> `setIndicesP` (left-to-right)
  * `numpy.add.at(a, inds, vals)`           -> `scatterAddP` (accumulating)
-/

namespace OpenMDAO

/-- numpy fancy-index gather `a[inds]` (reads are assumed in bounds in the
source; out-of-range positions default to 0 in the model). -/
def gather (a : List ℚ) (inds : List Nat) : List ℚ :=
  inds.map (fun i => a.getD i 0)

/-- numpy fancy-index assignment `a[inds] = vals`, given as index/value
pairs, processed left to right (later writes win on duplicate indices). -/
def setIndicesP (a : List ℚ) (ps : List (Nat × ℚ)) : List ℚ :=
  ps.foldl (fun acc p => acc.set p.1 p.2) a

/-- Model of `numpy.add.at(a, inds, vals)`: accumulating scatter-add, given as
index/value pairs; duplicate indices accumulate. -/
def scatterAddP (a : List ℚ) (ps : List (Nat × ℚ)) : List ℚ :=
  ps.foldl (fun acc p => acc.set p.1 (acc.getD p.1 0 + p.2)) a

/-- One entry of the transfer's index map: the dict key `(ip_iset, op_iset)`
together with the index arrays `_ip_inds[key]` and `_op_inds[key]`. -/
structure TEntry where
  ip_iset : Nat
  op_iset : Nat
  ip_inds : List Nat
  op_inds : List Nat
deriving DecidableEq

/-- Body of the `mode == 'fwd'` loop of `DefaultTransfer.__call__`:
`ip_vec._data[ip_iset][ip_inds] = op_vec._data[op_iset][op_inds]`,
guarded by `len(self._ip_inds[key]) > 0`. -/
def fwd_step (op_data : List (List ℚ)) (acc : List (List ℚ)) (e : TEntry) :
    List (List ℚ) :=
  if 0 < e.ip_inds.length then
    acc.set e.ip_iset
      (setIndicesP (acc.getD e.ip_iset [])
        (e.ip_inds.zip (gather (op_data.getD e.op_iset []) e.op_inds)))
  else acc

/-- Body of the `mode == 'rev'` loop of `DefaultTransfer.__call__`:
`numpy.add.at(op_vec._data[op_iset], op_inds, ip_vec._data[ip_iset][ip_inds])`,
guarded by `len(self._ip_inds[key]) > 0`. -/
def rev_step (ip_data : List (List ℚ)) (acc : List (List ℚ)) (e : TEntry) :
    List (List ℚ) :=
  if 0 < e.ip_inds.length then
    acc.set e.op_iset
      (scatterAddP (acc.getD e.op_iset [])
        (e.op_inds.zip (gather (ip_data.getD e.ip_iset []) e.ip_inds)))
  else acc

/-- Model of `DefaultTransfer.__call__(ip_vec, op_vec, mode)`.  Returns the pair
(ip data, op data) after the call.  `mode == 'fwd'` mutates only the ip
store, `mode == 'rev'` mutates only the op store, and any other mode falls
through the `if`/`elif` chain and does nothing. -/
def transfer_call (tr : List TEntry) (ip_data op_data : List (List ℚ))
    (mode : String) : List (List ℚ) × List (List ℚ) :=
  if mode = "fwd" then
    (tr.foldl (fwd_step op_data) ip_data, op_data)
  else if mode = "rev" then
    (ip_data, tr.foldl (rev_step ip_data) op_data)
  else
    (ip_data, op_data)

/-- Model of `DefaultVector.add_scal_vec(val, vec)`:
`self._data[iset] *= val * vec._data[iset]` for every set. -/
def add_scal_vec (val : ℚ) (data vec_data : List (List ℚ)) :
    List (List ℚ) :=
  List.zipWith (fun d v => List.zipWith (fun x y => x * (val * y)) d v)
    data vec_data

/-- Model of `DefaultVector.get_norm()`: `global_sum = sum over sets of
numpy.sum(data ** 2)`, returned as `global_sum ** 0.5`. -/
noncomputable def get_norm (data : List (List ℚ)) : ℝ :=
  Real.sqrt (((data.map (fun d => (d.map (fun x => x * x)).sum)).sum : ℚ) : ℝ)

/-- Loop body of `_extract_data` for one variable set `iset`, given the
rows `sub = variable_set_indices[ind1:ind2]`: select the rows belonging to
that set; if any exist, alias the contiguous slice of the global vector's
buffer for that set (here materialised by `drop`/`take`), otherwise produce
`numpy.zeros(0)`, i.e. the empty buffer. -/
def extract_one (variable_sizes : List (List (List Nat)))
    (sub : List (Nat × Nat)) (iproc : Nat) (global_data : List (List ℚ))
    (iset : Nat) : List ℚ :=
  let data_inds := (sub.filter (fun r => r.1 == iset)).map (fun r => r.2)
  match data_inds with
  | [] => []
  | d0 :: rest =>
    let sizes_array := (variable_sizes.getD iset []).getD iproc []
    let i1 := (sizes_array.take d0).sum
    let i2 := (sizes_array.take (rest.getLastD d0 + 1)).sum
    ((global_data.getD iset []).drop i1).take (i2 - i1)

/-- Model of `DefaultVector._extract_data()`: one buffer per variable set, extracted
from the global vector. -/
def extract_data (variable_sizes : List (List (List Nat)))
    (variable_set_indices : List (Nat × Nat)) (ind1 ind2 iproc : Nat)
    (global_data : List (List ℚ)) : List (List ℚ) :=
  let sub := (variable_set_indices.drop ind1).take (ind2 - ind1)
  (List.range variable_sizes.length).map
    (extract_one variable_sizes sub iproc global_data)

/-! ### A reference/heap model for buffer aliasing

`DefaultVector._data[iset]` is a numpy array that may be a *view* of a slice
of a parent (global) vector's larger array.  To state the aliasing claim
about `_clone_data` we model the collection of allocated arrays as a heap
(`List (List ℚ)`) and a store's per-set buffer as a `Ref`: the index of the
backing array in the heap plus the offset and length of the viewed slice. -/

/-- A numpy view: array number `cell` in the heap, slice
`[start, start + len)`. -/
structure Ref where
  cell : Nat
  start : Nat
  len : Nat
deriving DecidableEq

/-- The contents seen through a view. -/
def readRef (h : List (List ℚ)) (r : Ref) : List ℚ :=
  ((h.getD r.cell []).drop r.start).take r.len

/-- An in-place element write through a view (`view[i] = x`); writes outside
the view's extent are out of the model (left as a no-op). -/
def writeRef (h : List (List ℚ)) (r : Ref) (i : Nat) (x : ℚ) :
    List (List ℚ) :=
  if i < r.len then
    h.set r.cell ((h.getD r.cell []).set (r.start + i) x)
  else h

/-- Model of `DefaultVector._clone_data`: for each set buffer, allocate a fresh array
holding a copy of the referenced contents (`numpy.array(data)`) and repoint
the store's reference at it.  Returns the new reference list and the grown
heap. -/
def clone_refs : List Ref → List (List ℚ) → List Ref × List (List ℚ)
  | [], h => ([], h)
  | r :: rs, h =>
    let rest := clone_refs rs (h ++ [readRef h r])
    (⟨h.length, 0, r.len⟩ :: rest.1, rest.2)

def clone_data (refs : List Ref) (h : List (List ℚ)) :
    List Ref × List (List ℚ) :=
  clone_refs refs h

/-! ### Basic helper lemmas about the list primitives -/

theorem getD_eq_getElem {α : Type u} (l : List α) (k : Nat) (d : α)
    (h : k < l.length) : l.getD k d = l[k] := by
  simp [List.getD_eq_getElem?_getD, List.getElem?_eq_getElem h]

theorem getD_set_self {α : Type u} (l : List α) (i : Nat) (v d : α)
    (h : i < l.length) : (l.set i v).getD i d = v := by
  simp [List.getD_eq_getElem?_getD, List.getElem?_set_self h]

theorem getD_set_ne {α : Type u} (l : List α) (i j : Nat) (v d : α)
    (h : i ≠ j) : (l.set i v).getD j d = l.getD j d := by
  simp [List.getD_eq_getElem?_getD, List.getElem?_set_ne h]

@[simp] theorem setIndicesP_nil (a : List ℚ) : setIndicesP a [] = a := rfl

@[simp] theorem setIndicesP_cons (a : List ℚ) (p : Nat × ℚ)
    (ps : List (Nat × ℚ)) :
    setIndicesP a (p :: ps) = setIndicesP (a.set p.1 p.2) ps := rfl

@[simp] theorem scatterAddP_nil (a : List ℚ) : scatterAddP a [] = a := rfl

@[simp] theorem scatterAddP_cons (a : List ℚ) (p : Nat × ℚ)
    (ps : List (Nat × ℚ)) :
    scatterAddP a (p :: ps) =
      scatterAddP (a.set p.1 (a.getD p.1 0 + p.2)) ps := rfl

theorem setIndicesP_length (ps : List (Nat × ℚ)) :
    ∀ a : List ℚ, (setIndicesP a ps).length = a.length := by
  induction ps with
  | nil => intro a; rfl
  | cons p ps ih =>
      intro a
      rw [setIndicesP_cons, ih]
      exact List.length_set a p.1 p.2

theorem scatterAddP_length (ps : List (Nat × ℚ)) :
    ∀ a : List ℚ, (scatterAddP a ps).length = a.length := by
  induction ps with
  | nil => intro a; rfl
  | cons p ps ih =>
      intro a
      rw [scatterAddP_cons, ih]
      exact List.length_set a p.1 _

theorem setIndicesP_getD_not_mem (ps : List (Nat × ℚ)) :
    ∀ (a : List ℚ) (j : Nat) (d : ℚ), (∀ p ∈ ps, p.1 ≠ j) →
      (setIndicesP a ps).getD j d = a.getD j d := by
  induction ps with
  | nil => intro a j d _; rfl
  | cons p ps ih =>
      intro a j d h
      rw [setIndicesP_cons, ih _ j d (fun q hq => h q (List.mem_cons_of_mem p hq))]
      exact getD_set_ne a p.1 j p.2 d (h p (List.mem_cons_self p ps))

theorem scatterAddP_getD_not_mem (ps : List (Nat × ℚ)) :
    ∀ (a : List ℚ) (j : Nat) (d : ℚ), (∀ p ∈ ps, p.1 ≠ j) →
      (scatterAddP a ps).getD j d = a.getD j d := by
  induction ps with
  | nil => intro a j d _; rfl
  | cons p ps ih =>
      intro a j d h
      rw [scatterAddP_cons, ih _ j d (fun q hq => h q (List.mem_cons_of_mem p hq))]
      exact getD_set_ne a p.1 j _ d (h p (List.mem_cons_self p ps))

/-- The central accumulation law for `numpy.add.at`: the value at a position
`j` after the scatter is the old value plus the sum of every contribution
whose index equals `j`. -/
theorem scatterAddP_getD (ps : List (Nat × ℚ)) :
    ∀ (a : List ℚ) (j : Nat), j < a.length →
      (scatterAddP a ps).getD j 0 =
        a.getD j 0 + ((ps.filter (fun p => p.1 == j)).map Prod.snd).sum := by
  induction ps with
  | nil => intro a j _; simp
  | cons p ps ih =>
      intro a j hj
      rw [scatterAddP_cons]
      by_cases hpj : p.1 = j
      · have hj' : j < (a.set p.1 (a.getD p.1 0 + p.2)).length := by
          simpa using hj
        rw [ih _ j hj']
        subst hpj
        rw [getD_set_self a p.1 _ 0 hj]
        simp [List.filter_cons, add_assoc]
      · have hj' : j < (a.set p.1 (a.getD p.1 0 + p.2)).length := by
          simpa using hj
        rw [ih _ j hj', getD_set_ne a p.1 j _ 0 hpj]
        simp [List.filter_cons, hpj]

/-- Reading a position that was written exactly once (no duplicate write
indices) returns the written value. -/
theorem setIndicesP_getD_nodup (ps : List (Nat × ℚ)) :
    ∀ (a : List ℚ) (i : Nat) (v : ℚ), (ps.map Prod.fst).Nodup →
      (i, v) ∈ ps → i < a.length → (setIndicesP a ps).getD i 0 = v := by
  induction ps with
  | nil => intro a i v _ hmem _; cases hmem
  | cons q ps ih =>
      intro a i v hnd hmem hi
      rw [List.map_cons, List.nodup_cons] at hnd
      rcases List.mem_cons.mp hmem with heq | hmem'
      · subst heq
        rw [setIndicesP_cons]
        have hnotin : ∀ p ∈ ps, p.1 ≠ i := by
          intro p hp
          intro hpi
          have hp1 : p.1 ∈ ps.map Prod.fst := List.mem_map_of_mem Prod.fst hp
          rw [hpi] at hp1
          exact hnd.1 hp1
        rw [setIndicesP_getD_not_mem ps _ i 0 hnotin]
        exact getD_set_self a i v 0 hi
      · have hqi : q.1 ≠ i := by
          intro hqi
          have hp1 : (i, v).1 ∈ ps.map Prod.fst :=
            List.mem_map_of_mem Prod.fst hmem'
          rw [← hqi] at hp1
          exact hnd.1 hp1
        rw [setIndicesP_cons]
        have hi' : i < (a.set q.1 q.2).length := by simpa using hi
        exact ih _ i v hnd.2 hmem' hi'

theorem gather_length (a : List ℚ) (inds : List Nat) :
    (gather a inds).length = inds.length := by
  simp [gather]

theorem gather_getD (a : List ℚ) (inds : List Nat) (k : Nat)
    (hk : k < inds.length) :
    (gather a inds).getD k 0 = a.getD (inds.getD k 0) 0 := by
  have hk' : k < (gather a inds).length := by rw [gather_length]; exact hk
  rw [getD_eq_getElem _ _ _ hk', getD_eq_getElem inds k 0 hk]
  simp [gather]

theorem zip_getD_mem (l : List Nat) (vs : List ℚ) (k : Nat)
    (h1 : k < l.length) (h2 : k < vs.length) :
    (l.getD k 0, vs.getD k 0) ∈ l.zip vs := by
  have hk : k < (l.zip vs).length := by
    rw [List.length_zip]; exact lt_min h1 h2
  rw [getD_eq_getElem l k 0 h1, getD_eq_getElem vs k 0 h2]
  have hz := @List.getElem_zip Nat ℚ l vs k hk
  rw [← hz]
  exact List.getElem_mem hk

theorem getD_mem {α : Type u} (l : List α) (k : Nat) (d : α)
    (h : k < l.length) : l.getD k d ∈ l := by
  rw [getD_eq_getElem l k d h]
  exact List.getElem_mem h

theorem getD_append_left {α : Type u} (l m : List α) (n : Nat) (d : α)
    (h : n < l.length) : (l ++ m).getD n d = l.getD n d := by
  simp [List.getD_eq_getElem?_getD, List.getElem?_append_left h]

theorem getD_concat_length {α : Type u} (l : List α) (a : α) (d : α) :
    (l ++ [a]).getD l.length d = a := by
  simp [List.getD_eq_getElem?_getD, List.getElem?_concat_length]

/-- When the index list is duplicate-free, the contributions addressed to
index `l[k]` inside `zip l vs` are exactly the single value `vs[k]`. -/
theorem filter_zip_nodup_snd (l : List Nat) :
    ∀ (vs : List ℚ) (k : Nat), l.Nodup → l.length = vs.length →
      k < l.length →
      ((l.zip vs).filter (fun p => p.1 == l.getD k 0)).map Prod.snd =
        [vs.getD k 0] := by
  induction l with
  | nil => intro vs k _ _ hk; exact absurd hk (Nat.not_lt_zero k)
  | cons i l ih =>
      intro vs k hnd hlen hk
      cases vs with
      | nil => cases hlen
      | cons v vs =>
          have hnd' := List.nodup_cons.mp hnd
          cases k with
          | zero =>
              simp only [List.zip_cons_cons, List.filter_cons,
                List.getD_cons_zero, beq_self_eq_true, if_pos]
              have hnil :
                  (l.zip vs).filter (fun p => p.1 == i) = [] := by
                apply List.filter_eq_nil_iff.mpr
                intro p hp
                simp only [beq_iff_eq]
                intro hpe
                exact hnd'.1 (hpe ▸ (List.of_mem_zip hp).1)
              rw [hnil]
              rfl
          | succ k =>
              have hk' : k < l.length := Nat.lt_of_succ_lt_succ hk
              have hlen' : l.length = vs.length :=
                Nat.succ_injective hlen
              have hne : (i == l.getD k 0) = false := by
                apply beq_eq_false_iff_ne.mpr
                intro hcontra
                exact hnd'.1 (hcontra ▸ getD_mem l k 0 hk')
              simp only [List.zip_cons_cons, List.filter_cons,
                List.getD_cons_succ, hne]
              simp only [Bool.false_eq_true, if_false]
              exact ih vs k hnd'.2 hlen' hk'

theorem transfer_call_fwd (tr : List TEntry) (ip op : List (List ℚ)) :
    transfer_call tr ip op "fwd" = (tr.foldl (fwd_step op) ip, op) := by
  unfold transfer_call
  rw [if_pos rfl]

theorem transfer_call_rev (tr : List TEntry) (ip op : List (List ℚ)) :
    transfer_call tr ip op "rev" = (ip, tr.foldl (rev_step ip) op) := by
  unfold transfer_call
  rw [if_neg (by decide), if_pos rfl]

/-! ### Frame lemmas for the forward and reverse loops -/

theorem fwd_step_getD_frame (opd acc : List (List ℚ)) (e : TEntry)
    (iset j : Nat)
    (h : 0 < e.ip_inds.length → e.ip_iset = iset → j ∉ e.ip_inds) :
    ((fwd_step opd acc e).getD iset []).getD j 0 =
      (acc.getD iset []).getD j 0 := by
  unfold fwd_step
  by_cases hg : 0 < e.ip_inds.length
  · rw [if_pos hg]
    by_cases hs : e.ip_iset = iset
    · subst hs
      have hj : j ∉ e.ip_inds := h hg rfl
      by_cases hlt : e.ip_iset < acc.length
      · rw [getD_set_self acc e.ip_iset _ [] hlt]
        exact setIndicesP_getD_not_mem _ _ j 0 (fun p hp hpj => by
          rcases List.of_mem_zip hp with ⟨hp1, _⟩
          exact hj (hpj ▸ hp1))
      · rw [List.set_eq_of_length_le (Nat.le_of_not_lt hlt)]
    · rw [getD_set_ne acc e.ip_iset iset _ [] hs]
  · rw [if_neg hg]

theorem rev_step_getD_frame (ipd acc : List (List ℚ)) (e : TEntry)
    (iset j : Nat)
    (h : 0 < e.ip_inds.length → e.op_iset = iset → j ∉ e.op_inds) :
    ((rev_step ipd acc e).getD iset []).getD j 0 =
      (acc.getD iset []).getD j 0 := by
  unfold rev_step
  by_cases hg : 0 < e.ip_inds.length
  · rw [if_pos hg]
    by_cases hs : e.op_iset = iset
    · subst hs
      have hj : j ∉ e.op_inds := h hg rfl
      by_cases hlt : e.op_iset < acc.length
      · rw [getD_set_self acc e.op_iset _ [] hlt]
        exact scatterAddP_getD_not_mem _ _ j 0 (fun p hp hpj => by
          rcases List.of_mem_zip hp with ⟨hp1, _⟩
          exact hj (hpj ▸ hp1))
      · rw [List.set_eq_of_length_le (Nat.le_of_not_lt hlt)]
    · rw [getD_set_ne acc e.op_iset iset _ [] hs]
  · rw [if_neg hg]

theorem fwd_step_set_frame (opd acc : List (List ℚ)) (e : TEntry)
    (iset : Nat) (h : 0 < e.ip_inds.length → e.ip_iset ≠ iset) :
    (fwd_step opd acc e).getD iset [] = acc.getD iset [] := by
  unfold fwd_step
  by_cases hg : 0 < e.ip_inds.length
  · rw [if_pos hg]
    exact getD_set_ne acc e.ip_iset iset _ [] (h hg)
  · rw [if_neg hg]

theorem rev_step_set_frame (ipd acc : List (List ℚ)) (e : TEntry)
    (iset : Nat) (h : 0 < e.ip_inds.length → e.op_iset ≠ iset) :
    (rev_step ipd acc e).getD iset [] = acc.getD iset [] := by
  unfold rev_step
  by_cases hg : 0 < e.ip_inds.length
  · rw [if_pos hg]
    exact getD_set_ne acc e.op_iset iset _ [] (h hg)
  · rw [if_neg hg]

theorem foldl_fwd_step_getD_frame (tr : List TEntry) :
    ∀ (opd acc : List (List ℚ)) (iset j : Nat),
      (∀ e ∈ tr, 0 < e.ip_inds.length → e.ip_iset = iset → j ∉ e.ip_inds) →
      ((tr.foldl (fwd_step opd) acc).getD iset []).getD j 0 =
        (acc.getD iset []).getD j 0 := by
  induction tr with
  | nil => intro opd acc iset j _; rfl
  | cons e tr ih =>
      intro opd acc iset j h
      rw [List.foldl_cons,
        ih opd _ iset j (fun e' he' => h e' (List.mem_cons_of_mem e he'))]
      exact fwd_step_getD_frame opd acc e iset j (h e (List.mem_cons_self e tr))

theorem foldl_rev_step_getD_frame (tr : List TEntry) :
    ∀ (ipd acc : List (List ℚ)) (iset j : Nat),
      (∀ e ∈ tr, 0 < e.ip_inds.length → e.op_iset = iset → j ∉ e.op_inds) →
      ((tr.foldl (rev_step ipd) acc).getD iset []).getD j 0 =
        (acc.getD iset []).getD j 0 := by
  induction tr with
  | nil => intro ipd acc iset j _; rfl
  | cons e tr ih =>
      intro ipd acc iset j h
      rw [List.foldl_cons,
        ih ipd _ iset j (fun e' he' => h e' (List.mem_cons_of_mem e he'))]
      exact rev_step_getD_frame ipd acc e iset j (h e (List.mem_cons_self e tr))

theorem foldl_fwd_step_set_frame (tr : List TEntry) :
    ∀ (opd acc : List (List ℚ)) (iset : Nat),
      (∀ e ∈ tr, 0 < e.ip_inds.length → e.ip_iset ≠ iset) →
      (tr.foldl (fwd_step opd) acc).getD iset [] = acc.getD iset [] := by
  induction tr with
  | nil => intro opd acc iset _; rfl
  | cons e tr ih =>
      intro opd acc iset h
      rw [List.foldl_cons,
        ih opd _ iset (fun e' he' => h e' (List.mem_cons_of_mem e he'))]
      exact fwd_step_set_frame opd acc e iset (h e (List.mem_cons_self e tr))

theorem foldl_rev_step_set_frame (tr : List TEntry) :
    ∀ (ipd acc : List (List ℚ)) (iset : Nat),
      (∀ e ∈ tr, 0 < e.ip_inds.length → e.op_iset ≠ iset) →
      (tr.foldl (rev_step ipd) acc).getD iset [] = acc.getD iset [] := by
  induction tr with
  | nil => intro ipd acc iset _; rfl
  | cons e tr ih =>
      intro ipd acc iset h
      rw [List.foldl_cons,
        ih ipd _ iset (fun e' he' => h e' (List.mem_cons_of_mem e he'))]
      exact rev_step_set_frame ipd acc e iset (h e (List.mem_cons_self e tr))

/-! ### Single-pair transfer laws (shared helpers) -/

/-- Reverse mode on a single mapped pair: the value at any output position
`j` becomes the old value plus the sum of the contributions addressed to
`j`. -/
theorem rev_single_getD (e : TEntry) (ip op : List (List ℚ)) (j : Nat)
    (hne : 0 < e.ip_inds.length) (hiset : e.op_iset < op.length)
    (hj : j < (op.getD e.op_iset []).length) :
    (((transfer_call [e] ip op "rev").2).getD e.op_iset []).getD j 0 =
      (op.getD e.op_iset []).getD j 0 +
        (((e.op_inds.zip (gather (ip.getD e.ip_iset []) e.ip_inds)).filter
            (fun p => p.1 == j)).map Prod.snd).sum := by
  simp only [transfer_call_rev, List.foldl_cons, List.foldl_nil]
  unfold rev_step
  rw [if_pos hne, getD_set_self op e.op_iset _ [] hiset]
  exact scatterAddP_getD _ _ j hj

/-- Forward mode on a single mapped pair with duplicate-free destination
indices: position `ip_inds[k]` of the ip buffer receives
`op_data[op_iset][op_inds[k]]`. -/
theorem fwd_single_getD (e : TEntry) (ip op : List (List ℚ)) (k : Nat)
    (hlen : e.ip_inds.length = e.op_inds.length)
    (hnd : e.ip_inds.Nodup)
    (hiset : e.ip_iset < ip.length)
    (hk : k < e.ip_inds.length)
    (hbound : e.ip_inds.getD k 0 < (ip.getD e.ip_iset []).length) :
    (((transfer_call [e] ip op "fwd").1).getD e.ip_iset []).getD
        (e.ip_inds.getD k 0) 0 =
      (op.getD e.op_iset []).getD (e.op_inds.getD k 0) 0 := by
  simp only [transfer_call_fwd, List.foldl_cons, List.foldl_nil]
  unfold fwd_step
  rw [if_pos (Nat.lt_of_le_of_lt (Nat.zero_le k) hk),
    getD_set_self ip e.ip_iset _ [] hiset]
  have hglen : (gather (op.getD e.op_iset []) e.op_inds).length =
      e.op_inds.length := gather_length _ _
  have hle : e.ip_inds.length ≤
      (gather (op.getD e.op_iset []) e.op_inds).length := by
    rw [hglen]
    exact le_of_eq hlen
  have hndfst :
      ((e.ip_inds.zip (gather (op.getD e.op_iset []) e.op_inds)).map
        Prod.fst).Nodup := by
    rw [List.map_fst_zip _ _ hle]
    exact hnd
  have hmem : (e.ip_inds.getD k 0,
        (gather (op.getD e.op_iset []) e.op_inds).getD k 0) ∈
      e.ip_inds.zip (gather (op.getD e.op_iset []) e.op_inds) :=
    zip_getD_mem _ _ k hk (Nat.lt_of_lt_of_le hk hle)
  rw [setIndicesP_getD_nodup _ _ _ _ hndfst hmem hbound]
  exact gather_getD _ _ k (hlen ▸ hk)

/-! ### Claim theorems -/

/-- C1: in reverse mode, for every mapped pair with a non-empty index array,
the values at the input store's addressed elements are added into the output
store's addressed elements; the value at any output position `j` is its old
value plus the sum of all contributions whose destination index equals `j`,
so duplicate destination indices accumulate rather than overwrite. -/
theorem transfer_rev_accumulates (e : TEntry) (ip op : List (List ℚ))
    (j : Nat) (hne : 0 < e.ip_inds.length) (hiset : e.op_iset < op.length)
    (hj : j < (op.getD e.op_iset []).length) :
    (((transfer_call [e] ip op "rev").2).getD e.op_iset []).getD j 0 =
      (op.getD e.op_iset []).getD j 0 +
        (((e.op_inds.zip (gather (ip.getD e.ip_iset []) e.ip_inds)).filter
            (fun p => p.1 == j)).map Prod.snd).sum :=
  rev_single_getD e ip op j hne hiset hj

/-- Witness for C1: a concrete reverse transfer with colliding destination
indices `[1, 1]` sums both contributions `5 + 7` onto the old value `200`. -/
theorem transfer_rev_accumulates_witness :
    (((transfer_call [⟨0, 0, [0, 1], [1, 1]⟩] [[5, 7]] [[100, 200]]
        "rev").2).getD 0 []).getD 1 0 = 212 := by
  have h := transfer_rev_accumulates ⟨0, 0, [0, 1], [1, 1]⟩ [[5, 7]]
    [[100, 200]] 1 (by decide) (by decide) (by decide)
  rw [h]
  norm_num [gather]

/-- C2: in forward mode, for every mapped pair with a non-empty index array,
the input store's buffer elements at the destination indices are overwritten
by the output store's buffer elements at the source indices:
`ip_data[ip_iset][ip_inds[k]] = op_data[op_iset][op_inds[k]]`. -/
theorem transfer_fwd_assigns (e : TEntry) (ip op : List (List ℚ)) (k : Nat)
    (hlen : e.ip_inds.length = e.op_inds.length)
    (hnd : e.ip_inds.Nodup)
    (hiset : e.ip_iset < ip.length)
    (hk : k < e.ip_inds.length)
    (hbound : e.ip_inds.getD k 0 < (ip.getD e.ip_iset []).length) :
    (((transfer_call [e] ip op "fwd").1).getD e.ip_iset []).getD
        (e.ip_inds.getD k 0) 0 =
      (op.getD e.op_iset []).getD (e.op_inds.getD k 0) 0 :=
  fwd_single_getD e ip op k hlen hnd hiset hk hbound

/-- Witness for C2: a concrete forward transfer writes `op[0] = 8` into
`ip[1]` through the map `ip_inds = [1, 0]`, `op_inds = [0, 1]`. -/
theorem transfer_fwd_assigns_witness :
    (((transfer_call [⟨0, 0, [1, 0], [0, 1]⟩] [[0, 0]] [[8, 9]]
        "fwd").1).getD 0 []).getD 1 0 = 8 := by
  have h := transfer_fwd_assigns ⟨0, 0, [1, 0], [0, 1]⟩ [[0, 0]] [[8, 9]] 0
    (by decide) (by decide) (by decide) (by decide) (by decide)
  rw [show ((8 : ℚ) : ℚ) = ((([[8, 9]] : List (List ℚ)).getD 0 []).getD
    (((⟨0, 0, [1, 0], [0, 1]⟩ : TEntry)).op_inds.getD 0 0) 0) from by decide]
  exact h

/-- C3: `add_scal_vec(val, vec)` updates each set's buffer multiplicatively:
every element becomes `old * (val * other)`, not the additive axpy
`old + val * other`. -/
theorem add_scal_vec_multiplies (val : ℚ) (d v : List (List ℚ))
    (iset j : Nat) (h1 : iset < d.length) (h2 : iset < v.length)
    (h3 : j < (d.getD iset []).length) (h4 : j < (v.getD iset []).length) :
    ((add_scal_vec val d v).getD iset []).getD j 0 =
      (d.getD iset []).getD j 0 * (val * (v.getD iset []).getD j 0) := by
  have hd : d.getD iset [] = d[iset] := getD_eq_getElem d iset [] h1
  have hv : v.getD iset [] = v[iset] := getD_eq_getElem v iset [] h2
  rw [hd] at h3
  rw [hv] at h4
  rw [hd, hv]
  unfold add_scal_vec
  have hz : iset < (List.zipWith
      (fun d' v' => List.zipWith (fun x y => x * (val * y)) d' v')
      d v).length := by
    rw [List.length_zipWith]
    exact lt_min h1 h2
  rw [getD_eq_getElem _ iset [] hz, List.getElem_zipWith]
  have hz2 : j < (List.zipWith (fun x y => x * (val * y))
      (d[iset]) (v[iset])).length := by
    rw [List.length_zipWith]
    exact lt_min h3 h4
  rw [getD_eq_getElem _ j 0 hz2, List.getElem_zipWith,
    getD_eq_getElem _ j 0 h3, getD_eq_getElem _ j 0 h4]

/-- Witness for C3: `add_scal_vec 2` on buffers `[[3]]` and `[[4]]` yields
`3 * (2 * 4) = 24` (an additive axpy would give `3 + 2 * 4 = 11`). -/
theorem add_scal_vec_multiplies_witness :
    ((add_scal_vec 2 [[3]] [[4]]).getD 0 []).getD 0 0 = 24 := by
  have h := add_scal_vec_multiplies 2 [[3]] [[4]] 0 0
    (by decide) (by decide) (by decide) (by decide)
  rw [h]
  norm_num

/-- C5 (amended): calling the transfer with a mode outside `{fwd, rev}` is
silently ignored: the `if`/`elif` chain has no `else` branch, so the call
returns with both stores unchanged and no error is raised. -/
theorem transfer_invalid_mode_noop (tr : List TEntry)
    (ip op : List (List ℚ)) (mode : String)
    (h1 : mode ≠ "fwd") (h2 : mode ≠ "rev") :
    transfer_call tr ip op mode = (ip, op) := by
  unfold transfer_call
  rw [if_neg h1, if_neg h2]

/-- Counterexample for C5 as stated: a call with the invalid mode `"bad"`
does not fail; it returns normally with both stores untouched, even though
the transfer's index map is non-empty. -/
theorem transfer_invalid_mode_silent :
    transfer_call [⟨0, 0, [0], [0]⟩] [[1]] [[2]] "bad" = ([[1]], [[2]]) := by
  decide

/-- Witness for the amended C5 theorem at another invalid mode. -/
theorem transfer_invalid_mode_noop_witness :
    transfer_call [] [[3]] [[4]] "lin" = ([[3]], [[4]]) :=
  transfer_invalid_mode_noop [] [[3]] [[4]] "lin" (by decide) (by decide)

/-- C7 (amended): with `src_inds = [0, 0, 1]`, `dst_inds = [1, 2, 0]` and
input buffer `[10, 20, 30]`, reverse mode increments `out[1] += 10`,
`out[2] += 10`, `out[0] += 20`; with colliding `dst_inds = [1, 1, 0]` it
yields `out[1] += 10 + 10` (source index 0 contributes twice) and
`out[0] += 20`, accumulated rather than overwritten. -/
theorem transfer_rev_scenarios (a b c : ℚ) :
    (transfer_call [⟨0, 0, [0, 0, 1], [1, 2, 0]⟩] [[10, 20, 30]]
        [[a, b, c]] "rev").2 = [[a + 20, b + 10, c + 10]]
    ∧ (transfer_call [⟨0, 0, [0, 0, 1], [1, 1, 0]⟩] [[10, 20, 30]]
        [[a, b, c]] "rev").2 = [[a + 20, b + 10 + 10, c]] := by
  constructor
  · simp [transfer_call_rev, rev_step, gather, scatterAddP]
  · simp [transfer_call_rev, rev_step, gather, scatterAddP]

/-- Counterexample for C7 as stated: in the colliding scenario
`dst_inds = [1, 1, 0]` the claim predicts `out[1] += 10 + 20`; starting from
a zero output buffer the code actually leaves `out[1] = 20` (the two
contributions are `10` and `10`), not `30`. -/
theorem transfer_rev_scenarios_cex :
    ¬((((transfer_call [⟨0, 0, [0, 0, 1], [1, 1, 0]⟩] [[10, 20, 30]]
        [[0, 0, 0]] "rev").2).getD 0 []).getD 1 0 = 10 + 20) := by
  simp [transfer_call_rev, rev_step, gather, scatterAddP]

/-- Counterexample for C4 as stated: with the one-to-one map
`ip_inds = [0]`, `op_inds = [0]`, a forward transfer from `op = [[1]]` into
`ip = [[0]]` followed by a reverse transfer with the same map yields
`([[1]], [[2]])`, not the original `([[0]], [[1]])`: the reverse transfer
adds instead of restoring. -/
theorem transfer_round_trip_cex :
    transfer_call [⟨0, 0, [0], [0]⟩]
        (transfer_call [⟨0, 0, [0], [0]⟩] [[0]] [[1]] "fwd").1
        (transfer_call [⟨0, 0, [0], [0]⟩] [[0]] [[1]] "fwd").2 "rev" ≠
      (([[0]] : List (List ℚ)), ([[1]] : List (List ℚ))) := by
  simp [transfer_call_fwd, transfer_call_rev, fwd_step, rev_step, gather,
    setIndicesP, scatterAddP]

/-- C4 (amended): executing a forward transfer and then immediately a
reverse transfer with the same one-to-one (duplicate-free, in-bounds) index
map does not reproduce the original values: every mapped element of the
output store is doubled (`op[op_inds[k]]` becomes twice its original value),
because the reverse transfer adds the forwarded values back onto the
originals instead of overwriting. -/
theorem transfer_round_trip_doubles (e : TEntry) (ip op : List (List ℚ))
    (k : Nat)
    (hlen : e.ip_inds.length = e.op_inds.length)
    (hndip : e.ip_inds.Nodup)
    (hndop : e.op_inds.Nodup)
    (hip : e.ip_iset < ip.length)
    (hop : e.op_iset < op.length)
    (hk : k < e.op_inds.length)
    (hbip : ∀ i ∈ e.ip_inds, i < (ip.getD e.ip_iset []).length)
    (hbop : ∀ i ∈ e.op_inds, i < (op.getD e.op_iset []).length) :
    (((transfer_call [e] (transfer_call [e] ip op "fwd").1
          (transfer_call [e] ip op "fwd").2 "rev").2).getD
        e.op_iset []).getD (e.op_inds.getD k 0) 0 =
      2 * ((op.getD e.op_iset []).getD (e.op_inds.getD k 0) 0) := by
  have hk' : k < e.ip_inds.length := by rw [hlen]; exact hk
  have hfwd2 : (transfer_call [e] ip op "fwd").2 = op := by
    rw [transfer_call_fwd]
  rw [hfwd2]
  have hj : e.op_inds.getD k 0 < (op.getD e.op_iset []).length :=
    hbop _ (getD_mem e.op_inds k 0 hk)
  rw [rev_single_getD e (transfer_call [e] ip op "fwd").1 op
    (e.op_inds.getD k 0) (Nat.lt_of_le_of_lt (Nat.zero_le k) hk') hop hj]
  have hglen :
      (gather ((transfer_call [e] ip op "fwd").1.getD e.ip_iset [])
        e.ip_inds).length = e.ip_inds.length := gather_length _ _
  have hfil :
      ((e.op_inds.zip
          (gather ((transfer_call [e] ip op "fwd").1.getD e.ip_iset [])
            e.ip_inds)).filter
        (fun p => p.1 == e.op_inds.getD k 0)).map Prod.snd =
      [(gather ((transfer_call [e] ip op "fwd").1.getD e.ip_iset [])
          e.ip_inds).getD k 0] :=
    filter_zip_nodup_snd e.op_inds _ k hndop (by rw [hglen, hlen]) hk
  rw [hfil]
  rw [List.sum_cons, List.sum_nil, add_zero]
  rw [gather_getD _ _ k hk']
  rw [fwd_single_getD e ip op k hlen hndip hip hk'
    (hbip _ (getD_mem e.ip_inds k 0 hk'))]
  ring

/-- Witness for the amended C4 theorem: with the one-to-one map
`ip_inds = [0, 1]`, `op_inds = [1, 0]`, after forward-then-reverse the
output element at index 1 is doubled from 9 to 18. -/
theorem transfer_round_trip_doubles_witness :
    (((transfer_call [⟨0, 0, [0, 1], [1, 0]⟩]
          (transfer_call [⟨0, 0, [0, 1], [1, 0]⟩] [[0, 0]] [[5, 9]]
            "fwd").1
          (transfer_call [⟨0, 0, [0, 1], [1, 0]⟩] [[0, 0]] [[5, 9]]
            "fwd").2 "rev").2).getD 0 []).getD 1 0 = 18 := by
  have h := transfer_round_trip_doubles ⟨0, 0, [0, 1], [1, 0]⟩ [[0, 0]]
    [[5, 9]] 0 (by decide) (by decide) (by decide) (by decide) (by decide)
    (by decide) (by decide) (by decide)
  exact h.trans (by norm_num)

/-- C6: `get_norm` returns the Euclidean norm over all sets' buffers
combined: it equals the square root of the sum of squares of the flattened
buffers; the store `[[3, 4], [0]]` has norm 5; and the norm only depends on
the concatenation of the buffers, not on how the elements are split across
sets. -/
theorem get_norm_l2 :
    (∀ v : List (List ℚ), get_norm v =
        Real.sqrt (((v.flatten.map (fun x => x * x)).sum : ℚ) : ℝ))
    ∧ get_norm [[3, 4], [0]] = 5
    ∧ ∀ v w : List (List ℚ), v.flatten = w.flatten →
        get_norm v = get_norm w := by
  have hmain : ∀ v : List (List ℚ), get_norm v =
      Real.sqrt (((v.flatten.map (fun x => x * x)).sum : ℚ) : ℝ) := by
    intro v
    unfold get_norm
    congr 2
    rw [List.map_flatten, List.sum_flatten, List.map_map]
    rfl
  refine ⟨hmain, ?_, ?_⟩
  · rw [hmain]
    have h25 : ((([[3, 4], [0]] : List (List ℚ)).flatten.map
        (fun x => x * x)).sum : ℚ) = 25 := by norm_num
    rw [h25, show ((25 : ℚ) : ℝ) = (5 : ℝ) ^ 2 by norm_num]
    exact Real.sqrt_sq (by norm_num)
  · intro v w h
    rw [hmain v, hmain w, h]

/-- Witness for C6: the same elements regrouped as `[[3], [4, 0]]` have the
same flattening, hence by the invariance part the same norm, 5. -/
theorem get_norm_l2_witness : get_norm [[3], [4, 0]] = 5 := by
  have h := get_norm_l2
  have hinv := h.2.2 [[3, 4], [0]] [[3], [4, 0]] rfl
  rw [← hinv]
  exact h.2.1

/-- Helper for C9: a set with no matching rows yields the empty buffer. -/
theorem extract_one_eq_nil (vs : List (List (List Nat)))
    (sub : List (Nat × Nat)) (iproc : Nat) (gd : List (List ℚ))
    (iset : Nat) (hfil : sub.filter (fun r => r.1 == iset) = []) :
    extract_one vs sub iproc gd iset = [] := by
  simp only [extract_one, hfil, List.map_nil]

/-- C9: in aliased-extraction construction, for every variable set in which
this process owns no local variables (no row of the system's index-range
slice belongs to the set), the extracted per-set buffer is the empty
(zero-length) array, and the result still has one entry per variable set
(never null/absent); `extract_data` is total, so construction cannot
fail. -/
theorem extract_data_empty_set (vs : List (List (List Nat)))
    (vsi : List (Nat × Nat)) (ind1 ind2 iproc : Nat) (gd : List (List ℚ))
    (iset : Nat) (hiset : iset < vs.length)
    (hnone : ∀ r ∈ (vsi.drop ind1).take (ind2 - ind1), r.1 ≠ iset) :
    (extract_data vs vsi ind1 ind2 iproc gd).length = vs.length ∧
    (extract_data vs vsi ind1 ind2 iproc gd).getD iset [] = [] := by
  constructor
  · show ((List.range vs.length).map
      (extract_one vs ((vsi.drop ind1).take (ind2 - ind1)) iproc
        gd)).length = vs.length
    simp
  · show ((List.range vs.length).map
      (extract_one vs ((vsi.drop ind1).take (ind2 - ind1)) iproc
        gd)).getD iset [] = []
    have hlen2 : iset < ((List.range vs.length).map
        (extract_one vs ((vsi.drop ind1).take (ind2 - ind1)) iproc
          gd)).length := by
      simp [hiset]
    rw [getD_eq_getElem _ iset [] hlen2, List.getElem_map,
      List.getElem_range]
    apply extract_one_eq_nil
    apply List.filter_eq_nil_iff.mpr
    intro r hr
    simp only [beq_iff_eq]
    exact hnone r hr

/-- Witness for C9: with two variable sets and a range selecting only a row
of set 0, set 1's extracted buffer is empty and both sets are present. -/
theorem extract_data_empty_set_witness :
    (extract_data [[[1]], [[2]]] [(0, 0)] 0 1 0 [[7], [8, 8]]).length = 2 ∧
    (extract_data [[[1]], [[2]]] [(0, 0)] 0 1 0 [[7], [8, 8]]).getD 1 []
      = [] :=
  extract_data_empty_set [[[1]], [[2]]] [(0, 0)] 0 1 0 [[7], [8, 8]] 1
    (by decide) (by decide)

/-- C10: the transfer mutates only one of the two stores.  In forward mode
the op store is returned unchanged, any ip position not named as a
destination index of a non-empty pair targeting its set keeps its value,
and the whole buffer of any set not targeted by a non-empty pair is
unchanged; symmetrically in reverse mode for the op store. -/
theorem transfer_frame (tr : List TEntry) (ip op : List (List ℚ)) :
    ((transfer_call tr ip op "fwd").2 = op
      ∧ (∀ iset j : Nat,
          (∀ e ∈ tr, 0 < e.ip_inds.length → e.ip_iset = iset →
            j ∉ e.ip_inds) →
          (((transfer_call tr ip op "fwd").1).getD iset []).getD j 0 =
            (ip.getD iset []).getD j 0)
      ∧ (∀ iset : Nat,
          (∀ e ∈ tr, 0 < e.ip_inds.length → e.ip_iset ≠ iset) →
          ((transfer_call tr ip op "fwd").1).getD iset [] =
            ip.getD iset []))
    ∧ ((transfer_call tr ip op "rev").1 = ip
      ∧ (∀ iset j : Nat,
          (∀ e ∈ tr, 0 < e.ip_inds.length → e.op_iset = iset →
            j ∉ e.op_inds) →
          (((transfer_call tr ip op "rev").2).getD iset []).getD j 0 =
            (op.getD iset []).getD j 0)
      ∧ (∀ iset : Nat,
          (∀ e ∈ tr, 0 < e.ip_inds.length → e.op_iset ≠ iset) →
          ((transfer_call tr ip op "rev").2).getD iset [] =
            op.getD iset [])) := by
  refine ⟨⟨?_, ?_, ?_⟩, ?_, ?_, ?_⟩
  · rw [transfer_call_fwd]
  · intro iset j h
    rw [transfer_call_fwd]
    exact foldl_fwd_step_getD_frame tr op ip iset j h
  · intro iset h
    rw [transfer_call_fwd]
    exact foldl_fwd_step_set_frame tr op ip iset h
  · rw [transfer_call_rev]
  · intro iset j h
    rw [transfer_call_rev]
    exact foldl_rev_step_getD_frame tr ip op iset j h
  · intro iset h
    rw [transfer_call_rev]
    exact foldl_rev_step_set_frame tr ip op iset h

/-- Witness for C10: a forward transfer writing only ip position 0 leaves
ip position 1 (value 2) unchanged. -/
theorem transfer_frame_witness :
    (((transfer_call [⟨0, 0, [0], [0]⟩] [[1, 2]] [[3, 4]] "fwd").1).getD
        0 []).getD 1 0 = 2 := by
  have h := (transfer_frame [⟨0, 0, [0], [0]⟩] [[1, 2]] [[3, 4]]).1.2.1 0 1
    (by decide)
  rw [h]
  norm_num

/-! ### Lemmas about `clone_refs` (for the aliasing claim) -/

theorem clone_refs_fst_length (rs : List Ref) :
    ∀ h : List (List ℚ), (clone_refs rs h).1.length = rs.length := by
  induction rs with
  | nil => intro h; rfl
  | cons r rs ih =>
      intro h
      simp only [clone_refs, List.length_cons]
      rw [ih]

theorem clone_refs_getD_frozen (rs : List Ref) :
    ∀ (h : List (List ℚ)) (c : Nat), c < h.length →
      (clone_refs rs h).2.getD c [] = h.getD c [] := by
  induction rs with
  | nil => intro h c _; rfl
  | cons r rs ih =>
      intro h c hc
      have hc' : c < (h ++ [readRef h r]).length := by
        rw [List.length_append]
        exact Nat.lt_of_lt_of_le hc (Nat.le_add_right _ _)
      show (clone_refs rs (h ++ [readRef h r])).2.getD c [] = h.getD c []
      rw [ih _ c hc']
      exact getD_append_left h _ c [] hc

theorem clone_refs_cells_fresh (rs : List Ref) :
    ∀ h : List (List ℚ), ∀ r' ∈ (clone_refs rs h).1,
      h.length ≤ r'.cell := by
  induction rs with
  | nil => intro h r' hr'; exact absurd hr' (List.not_mem_nil r')
  | cons r rs ih =>
      intro h r' hr'
      simp only [clone_refs] at hr'
      rcases List.mem_cons.mp hr' with heq | hmem
      · rw [heq]
      · refine le_trans ?_ (ih (h ++ [readRef h r]) r' hmem)
        rw [List.length_append]
        exact Nat.le_add_right _ _

theorem readRef_congr {h1 h2 : List (List ℚ)} (r : Ref)
    (hc : h1.getD r.cell [] = h2.getD r.cell []) :
    readRef h1 r = readRef h2 r := by
  unfold readRef
  rw [hc]

theorem writeRef_getD_ne (h : List (List ℚ)) (r : Ref) (i : Nat) (x : ℚ)
    (c : Nat) (hc : c ≠ r.cell) :
    (writeRef h r i x).getD c [] = h.getD c [] := by
  unfold writeRef
  by_cases hi : i < r.len
  · rw [if_pos hi]
    exact getD_set_ne h r.cell c _ [] (fun he => hc he.symm)
  · rw [if_neg hi]

theorem clone_refs_reads (rs : List Ref) :
    ∀ h : List (List ℚ), (∀ r ∈ rs, r.cell < h.length) →
      ∀ p ∈ (clone_refs rs h).1.zip rs,
        readRef (clone_refs rs h).2 p.1 = readRef h p.2 := by
  induction rs with
  | nil => intro h _ p hp; exact absurd hp (List.not_mem_nil p)
  | cons r rs ih =>
      intro h hvalid p hp
      simp only [clone_refs, List.zip_cons_cons] at hp ⊢
      have hlt : h.length < (h ++ [readRef h r]).length := by
        simp
      rcases List.mem_cons.mp hp with heq | hmem
      · rw [heq]
        have hcell : (clone_refs rs (h ++ [readRef h r])).2.getD
            h.length [] = readRef h r := by
          rw [clone_refs_getD_frozen rs (h ++ [readRef h r]) h.length hlt]
          exact getD_concat_length h (readRef h r) []
        show (((clone_refs rs (h ++ [readRef h r])).2.getD
            h.length []).drop 0).take r.len = readRef h r
        rw [hcell, List.drop_zero]
        exact List.take_of_length_le (by
          unfold readRef
          exact List.length_take_le _ _)
      · obtain ⟨a, b⟩ := p
        have hb : b ∈ rs := (List.of_mem_zip hmem).2
        have hvalid' : ∀ r' ∈ rs,
            r'.cell < (h ++ [readRef h r]).length := by
          intro r' hr'
          exact Nat.lt_trans (hvalid r' (List.mem_cons_of_mem r hr')) hlt
        show readRef (clone_refs rs (h ++ [readRef h r])).2 a = readRef h b
        rw [ih (h ++ [readRef h r]) hvalid' (a, b) hmem]
        exact readRef_congr b
          (getD_append_left h _ b.cell [] (hvalid b
            (List.mem_cons_of_mem r hb)))

/-- C8: `_clone_data` replaces every set's buffer with an independent deep
copy.  For any store whose references are live in the current heap (in
particular the parent a buffer was extracted from): (1) the clone has one
new reference per old one and each reads back exactly the old contents;
(2) the cloning itself does not change what the parent store reads; and
(3) any write through a cloned reference leaves every read through the
parent store's references unchanged — aliasing is severed. -/
theorem clone_data_unaliased (parent dup : List Ref)
    (h : List (List ℚ))
    (hpar : ∀ r ∈ parent, r.cell < h.length)
    (hdup : ∀ r ∈ dup, r.cell < h.length) :
    ((clone_data dup h).1.length = dup.length
      ∧ ∀ p ∈ (clone_data dup h).1.zip dup,
          readRef (clone_data dup h).2 p.1 = readRef h p.2)
    ∧ (∀ r ∈ parent, readRef (clone_data dup h).2 r = readRef h r)
    ∧ (∀ r' ∈ (clone_data dup h).1, ∀ (i : Nat) (x : ℚ), ∀ r ∈ parent,
        readRef (writeRef (clone_data dup h).2 r' i x) r =
          readRef (clone_data dup h).2 r) := by
  refine ⟨⟨clone_refs_fst_length dup h, clone_refs_reads dup h hdup⟩,
    ?_, ?_⟩
  · intro r hr
    exact readRef_congr r (clone_refs_getD_frozen dup h r.cell (hpar r hr))
  · intro r' hr' i x r hr
    apply readRef_congr
    apply writeRef_getD_ne
    exact Nat.ne_of_lt
      (Nat.lt_of_lt_of_le (hpar r hr) (clone_refs_cells_fresh dup h r' hr'))

/-- Witness for C8: cloning the single aliased buffer of heap `[[1, 2]]`
allocates cell 1; writing 9 through the cloned reference leaves the
parent's view of cell 0 reading `[1, 2]` unchanged. -/
theorem clone_data_unaliased_witness :
    readRef (writeRef (clone_data [⟨0, 0, 2⟩] [[1, 2]]).2 ⟨1, 0, 2⟩ 0 9)
      ⟨0, 0, 2⟩ = [1, 2] := by
  have h := clone_data_unaliased [⟨0, 0, 2⟩] [⟨0, 0, 2⟩] [[1, 2]]
    (by decide) (by decide)
  have h1 := h.2.2 ⟨1, 0, 2⟩ (by decide) 0 9 ⟨0, 0, 2⟩ (by decide)
  have h2 := h.2.1 ⟨0, 0, 2⟩ (by decide)
  rw [h1, h2]
  rfl

end OpenMDAO
